import Mathlib

/-!
# go-assignment: the password-hash server (`jumpCloud.go`)

A shallow embedding of the request handlers of `jumpCloud.go` and of the
digest function `SHA512`, followed by the properties proved about them.

Conventions of the embedding:

* a Go `string` is a Lean `String`, `[]byte(text)` is its UTF-8 encoding;
* `int` values that index the job table are `Int` (a slice length is bounded
  by memory, so `len(hs.hashes) + 1` cannot overflow); the `int64` counters
  `totalRequests` and `totalTime` are `Int` values kept in the `int64` range
  by `wrap64` at every addition;
* the library functions `sha512.New/Write/Sum` and
  `base64.StdEncoding.EncodeToString` are modelled by the algorithms of
  FIPS 180-4 and RFC 4648;
* the requests are numbered as they arrive; the field `w`, which all requests
  share, is the number of the request whose writer it holds.
-/

namespace JumpCloud

/-! ## crypto/sha512 (FIPS 180-4, section 6.4) -/

namespace sha512

/-- The word size of SHA-512 is 64 bits. -/
def mask (x : Nat) : Nat := x % 2 ^ 64

/-- Rotate a 64-bit word right by `n` bits. -/
def rotr (n x : Nat) : Nat := mask ((x >>> n) ||| (x <<< (64 - n)))

/-- Bitwise complement of a 64-bit word. -/
def not64 (x : Nat) : Nat := (2 ^ 64 - 1) ^^^ x

def Ch (x y z : Nat) : Nat := (x &&& y) ^^^ (not64 x &&& z)

def Maj (x y z : Nat) : Nat := (x &&& y) ^^^ (x &&& z) ^^^ (y &&& z)

def bigSigma0 (x : Nat) : Nat := rotr 28 x ^^^ rotr 34 x ^^^ rotr 39 x

def bigSigma1 (x : Nat) : Nat := rotr 14 x ^^^ rotr 18 x ^^^ rotr 41 x

def smallSigma0 (x : Nat) : Nat := rotr 1 x ^^^ rotr 8 x ^^^ (x >>> 7)

def smallSigma1 (x : Nat) : Nat := rotr 19 x ^^^ rotr 61 x ^^^ (x >>> 6)

/-- The eighty round constants. -/
def K : List Nat := [
  0x428a2f98d728ae22, 0x7137449123ef65cd, 0xb5c0fbcfec4d3b2f, 0xe9b5dba58189dbbc,
  0x3956c25bf348b538, 0x59f111f1b605d019, 0x923f82a4af194f9b, 0xab1c5ed5da6d8118,
  0xd807aa98a3030242, 0x12835b0145706fbe, 0x243185be4ee4b28c, 0x550c7dc3d5ffb4e2,
  0x72be5d74f27b896f, 0x80deb1fe3b1696b1, 0x9bdc06a725c71235, 0xc19bf174cf692694,
  0xe49b69c19ef14ad2, 0xefbe4786384f25e3, 0x0fc19dc68b8cd5b5, 0x240ca1cc77ac9c65,
  0x2de92c6f592b0275, 0x4a7484aa6ea6e483, 0x5cb0a9dcbd41fbd4, 0x76f988da831153b5,
  0x983e5152ee66dfab, 0xa831c66d2db43210, 0xb00327c898fb213f, 0xbf597fc7beef0ee4,
  0xc6e00bf33da88fc2, 0xd5a79147930aa725, 0x06ca6351e003826f, 0x142929670a0e6e70,
  0x27b70a8546d22ffc, 0x2e1b21385c26c926, 0x4d2c6dfc5ac42aed, 0x53380d139d95b3df,
  0x650a73548baf63de, 0x766a0abb3c77b2a8, 0x81c2c92e47edaee6, 0x92722c851482353b,
  0xa2bfe8a14cf10364, 0xa81a664bbc423001, 0xc24b8b70d0f89791, 0xc76c51a30654be30,
  0xd192e819d6ef5218, 0xd69906245565a910, 0xf40e35855771202a, 0x106aa07032bbd1b8,
  0x19a4c116b8d2d0c8, 0x1e376c085141ab53, 0x2748774cdf8eeb99, 0x34b0bcb5e19b48a8,
  0x391c0cb3c5c95a63, 0x4ed8aa4ae3418acb, 0x5b9cca4f7763e373, 0x682e6ff3d6b2b8a3,
  0x748f82ee5defb2fc, 0x78a5636f43172f60, 0x84c87814a1f0ab72, 0x8cc702081a6439ec,
  0x90befffa23631e28, 0xa4506cebde82bde9, 0xbef9a3f7b2c67915, 0xc67178f2e372532b,
  0xca273eceea26619c, 0xd186b8c721c0c207, 0xeada7dd6cde0eb1e, 0xf57d4f7fee6ed178,
  0x06f067aa72176fba, 0x0a637dc5a2c898a6, 0x113f9804bef90dae, 0x1b710b35131c471b,
  0x28db77f523047d84, 0x32caab7b40c72493, 0x3c9ebe0a15c9bebc, 0x431d67c49c100d4c,
  0x4cc5d4becb3e42b6, 0x597f299cfc657e2a, 0x5fcb6fab3ad6faec, 0x6c44198c4a475817]

/-- The eight working variables, also the shape of the chaining value. -/
structure Vars where
  a : Nat
  b : Nat
  c : Nat
  d : Nat
  e : Nat
  f : Nat
  g : Nat
  h : Nat
deriving DecidableEq, Repr

/-- The initial hash value. -/
def H0 : Vars :=
  { a := 0x6a09e667f3bcc908, b := 0xbb67ae8584caa73b,
    c := 0x3c6ef372fe94f82b, d := 0xa54ff53a5f1d36f1,
    e := 0x510e527fade682d1, f := 0x9b05688c2b3e6c1f,
    g := 0x1f83d9abfb41bd6b, h := 0x5be0cd19137e2179 }

/-- Big-endian bytes of `x`, `n` of them. -/
def beBytes : Nat → Nat → List Nat
  | 0, _ => []
  | n + 1, x => (x >>> (8 * n)) % 256 :: beBytes n x

/-- The big-endian value of a byte string. -/
def beValue (bs : List Nat) : Nat := bs.foldl (fun acc b => acc * 256 + b) 0

/-- Message padding: a `1` bit, zero bits up to 112 mod 128 bytes, then the
bit length as a 128-bit big-endian integer. -/
def pad (msg : List Nat) : List Nat :=
  msg ++ 0x80 :: List.replicate ((128 - (msg.length + 17) % 128) % 128) 0
    ++ beBytes 16 (8 * msg.length)

/-- Cut a list into pieces of `n` elements; `fuel` bounds the number of pieces. -/
def chunks (n : Nat) : Nat → List Nat → List (List Nat)
  | 0, _ => []
  | fuel + 1, l => if l.isEmpty then [] else l.take n :: chunks n fuel (l.drop n)

/-- The sixteen 64-bit words of a 128-byte block. -/
def blockWords (block : List Nat) : List Nat :=
  (chunks 8 16 block).map beValue

/-- Extend the message schedule by `n` words; `rev` holds the words computed
so far, the latest first. -/
def extend : Nat → List Nat → List Nat
  | 0, rev => rev
  | n + 1, rev =>
    extend n (mask (smallSigma1 (rev.getD 1 0) + rev.getD 6 0
      + smallSigma0 (rev.getD 14 0) + rev.getD 15 0) :: rev)

/-- The eighty-word message schedule of a block. -/
def schedule (block : List Nat) : List Nat :=
  (extend 64 (blockWords block).reverse).reverse

/-- One round of the compression function. -/
def round (v : Vars) (kw : Nat × Nat) : Vars :=
  let t1 := v.h + bigSigma1 v.e + Ch v.e v.f v.g + kw.1 + kw.2
  let t2 := bigSigma0 v.a + Maj v.a v.b v.c
  { a := mask (t1 + t2), b := v.a, c := v.b, d := v.c,
    e := mask (v.d + t1), f := v.e, g := v.f, h := v.g }

/-- Process one block: eighty rounds, then add into the chaining value. -/
def compress (hv : Vars) (block : List Nat) : Vars :=
  let v := (K.zip (schedule block)).foldl round hv
  { a := mask (hv.a + v.a), b := mask (hv.b + v.b),
    c := mask (hv.c + v.c), d := mask (hv.d + v.d),
    e := mask (hv.e + v.e), f := mask (hv.f + v.f),
    g := mask (hv.g + v.g), h := mask (hv.h + v.h) }

/-- The digest bytes of a chaining value. -/
def output (v : Vars) : List Nat :=
  beBytes 8 v.a ++ beBytes 8 v.b ++ beBytes 8 v.c ++ beBytes 8 v.d
    ++ beBytes 8 v.e ++ beBytes 8 v.f ++ beBytes 8 v.g ++ beBytes 8 v.h

/-- The value of `sha512.New()`, `Write(msg)`, `Sum(nil)`: the SHA-512 digest
of `msg`. -/
def Sum (msg : List Nat) : List Nat :=
  let padded := pad msg
  output ((chunks 128 padded.length padded).foldl compress H0)

end sha512

/-! ## encoding/base64 (RFC 4648, section 4) -/

namespace base64

/-- The standard alphabet. -/
def encodeStd : List Char :=
  "ABCDEFGHIJKLMNOPQRSTUVWXYZabcdefghijklmnopqrstuvwxyz0123456789+/".data

/-- The character of a 6-bit value. -/
def digit (v : Nat) : Char := encodeStd.getD (v % 64) 'A'

/-- Encode a byte string, three bytes to four characters, the last group
padded with `=`. -/
def encode : List Nat → List Char
  | [] => []
  | [a] => [digit (a >>> 2), digit ((a &&& 3) <<< 4), '=', '=']
  | [a, b] =>
    [digit (a >>> 2), digit (((a &&& 3) <<< 4) ||| (b >>> 4)),
      digit ((b &&& 15) <<< 2), '=']
  | a :: b :: c :: rest =>
    digit (a >>> 2) :: digit (((a &&& 3) <<< 4) ||| (b >>> 4))
      :: digit (((b &&& 15) <<< 2) ||| (c >>> 6)) :: digit (c &&& 63)
      :: encode rest

/-- The `k`-th 6-bit group of `n`, counted from the right, as a character. -/
def sextet (n k : Nat) : Char := digit (n / 64 ^ k % 64)

/-- The encoding in the words of RFC 4648, section 4: three bytes form a
24-bit group that is written as four 6-bit groups; a last group of one or two
bytes is filled up with zero bits on the right and written as two or three
characters and `=` up to four. -/
def reference : List Nat → List Char
  | [] => []
  | [a] => [sextet (a * 2 ^ 16) 3, sextet (a * 2 ^ 16) 2, '=', '=']
  | [a, b] =>
    [sextet (a * 2 ^ 16 + b * 2 ^ 8) 3, sextet (a * 2 ^ 16 + b * 2 ^ 8) 2,
      sextet (a * 2 ^ 16 + b * 2 ^ 8) 1, '=']
  | a :: b :: c :: rest =>
    sextet (a * 2 ^ 16 + b * 2 ^ 8 + c) 3 :: sextet (a * 2 ^ 16 + b * 2 ^ 8 + c) 2
      :: sextet (a * 2 ^ 16 + b * 2 ^ 8 + c) 1 :: sextet (a * 2 ^ 16 + b * 2 ^ 8 + c) 0
      :: reference rest

/-- The value of `base64.StdEncoding.EncodeToString`. -/
def EncodeToString (src : List Nat) : String := String.mk (encode src)

end base64

/-- The bytes of a Go string: its UTF-8 encoding. -/
def bytes (text : String) : List Nat :=
  text.data.flatMap fun c => (String.utf8EncodeChar c).map UInt8.toNat

/-- The digest function `SHA512` of `jumpCloud.go`. -/
def SHA512 (text : String) : String :=
  base64.EncodeToString (sha512.Sum (bytes text))

/-! ## Go values -/

/-- Wrap an integer into the range of `int64` (two's complement). -/
def wrap64 (x : Int) : Int := (x + 2 ^ 63) % 2 ^ 64 - 2 ^ 63

/-- Go's `x / y` on `int64` for `y ≠ 0`: the quotient truncated toward zero;
the one quotient that does not fit, `MinInt64 / -1`, is `MinInt64`. -/
def div64 (x y : Int) : Int :=
  if x = -2 ^ 63 ∧ y = -1 then -2 ^ 63 else Int.tdiv x y

/-- Indexing a slice, `s[i]`: `none` is the run-time panic for an index out of
range. -/
def index (s : List String) (i : Int) : Option String :=
  if i < 0 then none else s[i.toNat]?

/-- Assigning a slice element, `s[i] = v`: `none` is the run-time panic for an
index out of range. -/
def assign (s : List String) (i : Int) (v : String) : Option (List String) :=
  if 0 ≤ i ∧ i.toNat < s.length then some (s.set i.toNat v) else none

/-- Reading a `map[string]int`, `m[k]`: the zero value when `k` is missing. -/
def mapGet : List (String × Int) → String → Int
  | [], _ => 0
  | (k', v) :: rest, k => if k' = k then v else mapGet rest k

/-- Writing a `map[string]int`, `m[k] = v`. -/
def mapSet : List (String × Int) → String → Int → List (String × Int)
  | [], k, v => [(k, v)]
  | (k', v') :: rest, k, v =>
    if k' = k then (k, v) :: rest else (k', v') :: mapSet rest k v

/-! ## The server -/

def ERROR_ID_LOWER_ZERO : String := "Error - id must be greater than 0"

def ERROR_PASSWORD_EMPTY : String := "password is empty or field not present"

def ERROR_ID_FORMAT : String := "invalid id format"

/-- The value of `time.Millisecond`, in nanoseconds. -/
def Millisecond : Int := 1000000

/-- The fields of `server` the handlers compute with. The requests are
numbered as they arrive, and `w` is the number of the request whose
`http.ResponseWriter` the field holds (0 before the first request); what the
handlers read from the field `r` is an argument of theirs. `passwordMap` lists
the entries of the Go map in insertion order; `totalTime` is in nanoseconds. -/
structure server where
  w : Nat
  hashes : List String
  passwordMap : List (String × Int)
  totalRequests : Int
  totalTime : Int
deriving DecidableEq, Repr

structure stats where
  Total : Int
  Average : Int
deriving DecidableEq, Repr

/-- The server as `main` sets it up. -/
def server.init : server :=
  { w := 0, hashes := [], passwordMap := [], totalRequests := 0, totalTime := 0 }

/-- What a handler prints to the `http.ResponseWriter` in `hs.w`. -/
inductive Reply where
  /-- The call `http.Error(hs.w, msg, code)`. -/
  | error (code : Nat) (msg : String)
  /-- The call `fmt.Fprintf(hs.w, "id generated: %d\n", id)`. -/
  | idGenerated (id : Int)
  /-- A body printed as it is. -/
  | body (text : String)
  /-- The JSON encoding of a `stats` value. -/
  | stats (s : stats)
deriving DecidableEq, Repr

/-- A run-time panic. -/
inductive Panic where
  | indexOutOfRange
  | divideByZero
deriving DecidableEq, Repr

/-- How a handler call goes on from the state it is evaluated in. -/
inductive Outcome where
  /-- The handler prints `r` to the writer that `hs.w` holds in this state. -/
  | reply (r : Reply)
  | panic (p : Panic)
  /-- Parked in `hs.doingHash.Wait()`. -/
  | waiting
deriving DecidableEq, Repr

/-- How a call of `lookupHash` goes on. -/
inductive Lookup where
  /-- The handler prints `r` to the writer of the request `w`: the one that
  `hs.w` holds when the handler prints. -/
  | printed (w : Nat) (r : Reply)
  | panic (p : Panic)
  /-- Parked in `hs.doingHash.Wait()`. -/
  | waiting
deriving DecidableEq, Repr

/-- A background task started by `go hs.startHash(id, password)`. -/
structure Task where
  id : Int
  password : String
deriving DecidableEq, Repr

/-- The digest step of `startHash` (lines 169-176): after the sleep, the
digest is stored at `hs.hashes[id-1]` under the lock. -/
def startHash.body (hs : server) (id : Int) (password : String) :
    Except Panic server :=
  let h := SHA512 password
  match assign hs.hashes (id - 1) h with
  | some hashes => .ok { hs with hashes := hashes }
  | none => .error .indexOutOfRange

/-- The deferred function of `startHash` (lines 163-167). -/
def startHash.deferred (hs : server) (elapsed : Int) : server :=
  { hs with totalTime := wrap64 (hs.totalTime + elapsed) }

/-- A whole call of `startHash`; `elapsed` is `time.Since(start)` as the
deferred function reads it. -/
def startHash (hs : server) (id : Int) (password : String) (elapsed : Int) :
    Except Panic server :=
  match startHash.body hs id password with
  | .ok hs1 => .ok (startHash.deferred hs1 elapsed)
  | .error p => .error p

/-- The body of `generateHash` (lines 76-104). `form` is what
`hs.r.ParseForm()` and `hs.r.PostFormValue("password")` give: the error of
the former, or the value of the latter (empty when the field is absent).
The result is the server, the reply and the task started, if any. -/
def generateHash.body (hs : server) (form : Except String String) :
    server × Reply × Option Task :=
  match form with
  | .error err => (hs, .error 500 err, none)
  | .ok password =>
    if (bytes password).length = 0 then
      (hs, .error 500 ERROR_PASSWORD_EMPTY, none)
    else
      let id := mapGet hs.passwordMap password
      if id = 0 then
        let id := (hs.hashes.length : Int) + 1
        ({ hs with
            passwordMap := mapSet hs.passwordMap password id
            hashes := hs.hashes ++ [""] },
          .idGenerated id, some { id := id, password := password })
      else
        (hs, .idGenerated id, none)

/-- The deferred function of `generateHash` (lines 69-74). -/
def generateHash.deferred (hs : server) (elapsed : Int) : server :=
  { hs with
    totalTime := wrap64 (hs.totalTime + elapsed)
    totalRequests := wrap64 (hs.totalRequests + 1) }

/-- A whole call of `generateHash`; `elapsed` is `time.Since(start)` as the
deferred function reads it. -/
def generateHash (hs : server) (form : Except String String) (elapsed : Int) :
    server × Reply × Option Task :=
  let r := generateHash.body hs form
  (generateHash.deferred r.1 elapsed, r.2.1, r.2.2)

/-- The handler `showStats`. -/
def showStats (hs : server) : Outcome :=
  if hs.totalRequests = 0 then .panic .divideByZero
  else
    .reply (.stats
      { Total := hs.totalRequests
        Average := div64 (div64 hs.totalTime Millisecond) hs.totalRequests })

/-- The handler `lookupHash`. `atoi` is the result of `strconv.Atoi` on the
path after `/hash/`, `none` for an error. `hs` is the server when the loop
condition on line 139 is evaluated under the lock (for a call that was parked,
after it woke up), `later` the server when lines 144-145 read the entry again
and print it to `hs.w`, after the lock is released. The field `w` is shared by
all requests and written without the lock (lines 52-53), so `later.w` is the
writer of the request that arrived last. -/
def lookupHash (hs later : server) (atoi : Option Int) : Lookup :=
  match atoi with
  | none => .printed hs.w (.error 404 ERROR_ID_FORMAT)
  | some id =>
    if id ≤ 0 then .printed hs.w (.body ERROR_ID_LOWER_ZERO)
    else
      match index hs.hashes (id - 1) with
      | none => .panic .indexOutOfRange
      | some entry =>
        if entry = "" then .waiting
        else
          match index later.hashes (id - 1) with
          | none => .panic .indexOutOfRange
          | some h => .printed later.w (.body h)

/-! ## Executions

The handlers run concurrently, one goroutine per request and one per
background task, and touch the server only inside the critical sections of
`hs.m`. An execution is therefore a sequence of these critical sections. -/

/-- The server together with the goroutines that have work left. -/
structure System where
  hs : server
  /-- The `generateHash` calls that have replied and not yet run their deferred
  function. -/
  submitting : Nat
  /-- The `startHash` tasks that have not yet stored their digest. -/
  sleeping : List Task
  /-- The `startHash` tasks that have stored their digest and not yet run their
  deferred function. -/
  billing : Nat
  /-- Every task started so far, the oldest first. -/
  started : List Task
  /-- A background task has panicked, which ends the process. -/
  crashed : Bool
deriving DecidableEq, Repr

def System.init : System :=
  { hs := server.init, submitting := 0, sleeping := [], billing := 0,
    started := [], crashed := false }

inductive Event where
  /-- The request number `w` arrives: the function that `main` registers stores
  its writer in `hs.w` (lines 52-53, outside the lock). -/
  | arrive (w : Nat)
  /-- A request to `/hash` runs the body of `generateHash`. -/
  | submit (form : Except String String)
  /-- A `generateHash` call runs its deferred function and returns. -/
  | submitted (elapsed : Int)
  /-- The sleeping task `t` wakes up and stores its digest. -/
  | publish (t : Task)
  /-- A task that has stored its digest runs its deferred function and ends. -/
  | finished (elapsed : Int)
deriving Repr

/-- One critical section. An event that names no goroutine of the system
leaves it as it is. -/
def step (s : System) (e : Event) : System :=
  if s.crashed then s
  else
    match e with
    | .arrive w => { s with hs := { s.hs with w := w } }
    | .submit form =>
      let r := generateHash.body s.hs form
      { s with
        hs := r.1
        submitting := s.submitting + 1
        sleeping := s.sleeping ++ r.2.2.toList
        started := s.started ++ r.2.2.toList }
    | .submitted elapsed =>
      if s.submitting = 0 then s
      else
        { s with
          hs := generateHash.deferred s.hs elapsed
          submitting := s.submitting - 1 }
    | .publish t =>
      if t ∈ s.sleeping then
        match startHash.body s.hs t.id t.password with
        | .ok hs1 =>
          { s with
            hs := hs1
            sleeping := s.sleeping.erase t
            billing := s.billing + 1 }
        | .error _ => { s with crashed := true }
      else s
    | .finished elapsed =>
      if s.billing = 0 then s
      else
        { s with
          hs := startHash.deferred s.hs elapsed
          billing := s.billing - 1 }

/-- The system after the events of `tr`, from `s`. -/
def run (s : System) (tr : List Event) : System := tr.foldl step s

/-- The password a `generateHash` call accepts: a submission whose form
parses and whose password is not empty. -/
def Event.password : Event → Option String
  | .submit (.ok p) => if p = "" then none else some p
  | _ => none

/-- The passwords accepted along `tr`, in order. -/
def passwords (tr : List Event) : List String := tr.filterMap Event.password

/-- The request that arrived last along `tr`, 0 when none has. -/
def arrived (tr : List Event) : Nat :=
  tr.foldl (fun w e => match e with | .arrive w2 => w2 | _ => w) 0

/-- Whether an event is the start of a `generateHash` call. -/
def Event.isSubmit : Event → Bool
  | .submit _ => true
  | _ => false

/-- The number of `generateHash` calls along `tr`. -/
def submissions (tr : List Event) : Nat := tr.countP Event.isSubmit

/-- The distinct elements of a list, each at its first occurrence. -/
def distinct (l : List String) : List String :=
  l.foldl (fun acc p => if p ∈ acc then acc else acc ++ [p]) []

/-- The entries that give the elements of a list the numbers `k`, `k + 1`, ... -/
def numbered (k : Int) : List String → List (String × Int)
  | [] => []
  | p :: ps => (p, k) :: numbered (k + 1) ps

/-- The task `generateHash` starts for an entry of `passwordMap`. -/
def taskOf (entry : String × Int) : Task := { id := entry.2, password := entry.1 }

/-! ## The invariant of the executions -/

/-- What holds of the system after the events of `tr` from the start. -/
structure Inv (tr : List Event) (s : System) : Prop where
  alive : s.crashed = false
  map : s.hs.passwordMap = numbered 1 (distinct (passwords tr))
  len : s.hs.hashes.length = (distinct (passwords tr)).length
  started : s.started = s.hs.passwordMap.map taskOf
  sub : s.sleeping.Sublist s.started
  pending : ∀ t ∈ s.sleeping, index s.hs.hashes (t.id - 1) = some ""
  ready : ∀ t ∈ s.started, t ∉ s.sleeping →
    index s.hs.hashes (t.id - 1) = some (SHA512 t.password)
  inflight : s.submitting ≤ submissions tr
  total : s.hs.totalRequests = wrap64 ((submissions tr - s.submitting : Nat) : Int)

/-! ## The digest function -/

theorem sha512.length_beBytes (n x : Nat) : (sha512.beBytes n x).length = n := by
  induction n with
  | zero => rfl
  | succ n ih => simp [sha512.beBytes, ih]

theorem sha512.length_Sum (msg : List Nat) : (sha512.Sum msg).length = 64 := by
  simp [sha512.Sum, sha512.output, sha512.length_beBytes]

theorem base64.length_encode (src : List Nat) :
    (base64.encode src).length = 4 * ((src.length + 2) / 3) := by
  induction src using base64.encode.induct with
  | case1 => rfl
  | case2 a => simp [base64.encode]
  | case3 a b => simp [base64.encode]
  | case4 a b c rest ih =>
    simp only [base64.encode, List.length_cons, ih]
    omega

theorem length_SHA512 (text : String) : (SHA512 text).length = 88 := by
  simp [SHA512, base64.EncodeToString, String.length, base64.length_encode,
    sha512.length_Sum]

theorem SHA512_ne_empty (text : String) : SHA512 text ≠ "" := by
  intro h
  have := length_SHA512 text
  rw [h] at this
  simp at this

theorem length_bytes_eq_zero (p : String) : (bytes p).length = 0 ↔ p = "" := by
  rcases p with ⟨l⟩
  cases l with
  | nil => simp [bytes]
  | cons c cs =>
    have h := Char.utf8Size_pos c
    simp [bytes, String.ext_iff]
    omega

/-! ## Slices and maps -/

theorem wrap64_of_range (x : Int) (h0 : -2 ^ 63 ≤ x) (h1 : x < 2 ^ 63) :
    wrap64 x = x := by
  unfold wrap64
  rw [Int.emod_eq_of_lt (by omega) (by omega)]
  omega

theorem wrap64_add_wrap64 (x y : Int) : wrap64 (wrap64 x + y) = wrap64 (x + y) := by
  unfold wrap64
  have h : (x + 2 ^ 63) % 2 ^ 64 - 2 ^ 63 + y + 2 ^ 63
      = (x + 2 ^ 63) % 2 ^ 64 + y := by ring
  have h2 : x + y + 2 ^ 63 = x + 2 ^ 63 + y := by ring
  rw [h, h2, Int.emod_add_emod]

theorem index_eq_some_iff (l : List String) (i : Int) (x : String) :
    index l i = some x ↔ 0 ≤ i ∧ l[i.toNat]? = some x := by
  unfold index
  split_ifs with h
  · simp; omega
  · simp; omega

theorem index_append (l l2 : List String) (i : Int) (x : String)
    (h : index l i = some x) : index (l ++ l2) i = some x := by
  rw [index_eq_some_iff] at h ⊢
  refine ⟨h.1, ?_⟩
  have hlt : i.toNat < l.length := by
    have := h.2
    rw [List.getElem?_eq_some] at this
    exact this.1
  rw [List.getElem?_append_left hlt]
  exact h.2

theorem index_append_new (l : List String) (x : String) :
    index (l ++ [x]) ((l.length : Int) + 1 - 1) = some x := by
  rw [index_eq_some_iff]
  refine ⟨by omega, ?_⟩
  have : ((l.length : Int) + 1 - 1).toNat = l.length := by omega
  rw [this]
  simp

theorem assign_of_index (l : List String) (i : Int) (x v : String)
    (h : index l i = some x) : assign l i v = some (l.set i.toNat v) := by
  rw [index_eq_some_iff] at h
  have hlt : i.toNat < l.length := by
    have := h.2
    rw [List.getElem?_eq_some] at this
    exact this.1
  simp [assign, h.1, hlt]

theorem index_set (l : List String) (i j : Int) (x v : String)
    (h : index l i = some x) :
    index (l.set i.toNat v) j = if j = i then some v else index l j := by
  rw [index_eq_some_iff] at h
  have hlt : i.toNat < l.length := by
    have := h.2
    rw [List.getElem?_eq_some] at this
    exact this.1
  unfold index
  by_cases hj : j < 0
  · have : j ≠ i := by omega
    simp [hj, this]
  · simp only [hj, if_false, List.getElem?_set]
    by_cases hji : j = i
    · subst hji
      simp [hlt]
    · have : i.toNat ≠ j.toNat := by omega
      simp [hji, this]

theorem mapGet_of_not_mem (m : List (String × Int)) (p : String)
    (h : p ∉ m.map Prod.fst) : mapGet m p = 0 := by
  induction m with
  | nil => rfl
  | cons e m ih =>
    obtain ⟨k, v⟩ := e
    simp only [List.map_cons, List.mem_cons, not_or] at h
    simp [mapGet, Ne.symm h.1, ih h.2]

theorem mapGet_of_mem (m : List (String × Int)) (p : String) (i : Int)
    (hn : (m.map Prod.fst).Nodup) (h : (p, i) ∈ m) : mapGet m p = i := by
  induction m with
  | nil => simp at h
  | cons e m ih =>
    obtain ⟨k, v⟩ := e
    simp only [List.map_cons, List.nodup_cons] at hn
    rcases List.mem_cons.1 h with h | h
    · cases h
      simp [mapGet]
    · have : k ≠ p := by
        rintro rfl
        exact hn.1 (List.mem_map_of_mem Prod.fst h)
      simp [mapGet, this, ih hn.2 h]

theorem mem_of_mapGet_ne_zero (m : List (String × Int)) (p : String)
    (h : mapGet m p ≠ 0) : (p, mapGet m p) ∈ m := by
  induction m with
  | nil => simp [mapGet] at h
  | cons e m ih =>
    obtain ⟨k, v⟩ := e
    by_cases hk : k = p
    · subst hk
      simp [mapGet]
    · simp only [mapGet, hk, if_false] at h ⊢
      exact List.mem_cons_of_mem _ (ih h)

theorem mapSet_of_not_mem (m : List (String × Int)) (p : String) (v : Int)
    (h : p ∉ m.map Prod.fst) : mapSet m p v = m ++ [(p, v)] := by
  induction m with
  | nil => rfl
  | cons e m ih =>
    obtain ⟨k, w⟩ := e
    simp only [List.map_cons, List.mem_cons, not_or] at h
    simp [mapSet, Ne.symm h.1, ih h.2]

/-! ## Distinct passwords and their numbers -/

theorem distinct_append_singleton (l : List String) (p : String) :
    distinct (l ++ [p]) = if p ∈ distinct l then distinct l else distinct l ++ [p] := by
  simp [distinct, List.foldl_append]

theorem mem_distinct (l : List String) : ∀ p, p ∈ distinct l ↔ p ∈ l := by
  induction l using List.reverseRecOn with
  | nil => simp [distinct]
  | append_singleton l q ih =>
    intro p
    rw [distinct_append_singleton]
    split_ifs with h
    · rw [ih] at h
      rw [ih, List.mem_append, List.mem_singleton]
      constructor
      · exact Or.inl
      · rintro (h1 | rfl)
        · exact h1
        · exact h
    · simp [ih]

theorem nodup_distinct (l : List String) : (distinct l).Nodup := by
  induction l using List.reverseRecOn with
  | nil => simp [distinct]
  | append_singleton l q ih =>
    rw [distinct_append_singleton]
    split_ifs with h
    · exact ih
    · exact List.Nodup.append ih (List.nodup_singleton q) (by simpa using h)

theorem distinct_extends (l l2 : List String) : distinct l <+: distinct (l ++ l2) := by
  induction l2 using List.reverseRecOn with
  | nil => simp
  | append_singleton l2 q ih =>
    rw [← List.append_assoc, distinct_append_singleton]
    split_ifs with h
    · exact ih
    · exact ih.trans (List.prefix_append _ _)

theorem length_distinct (l : List String) : (distinct l).length = l.toFinset.card := by
  rw [← List.toFinset_card_of_nodup (nodup_distinct l)]
  congr 1
  ext p
  simp [mem_distinct]

theorem numbered_append (k : Int) (a b : List String) :
    numbered k (a ++ b) = numbered k a ++ numbered (k + a.length) b := by
  induction a generalizing k with
  | nil => simp [numbered]
  | cons p ps ih =>
    have h : k + ((ps.length : Int) + 1) = k + 1 + ps.length := by ring
    show (p, k) :: numbered (k + 1) (ps ++ b)
      = (p, k) :: numbered (k + 1) ps ++ numbered (k + ((ps.length + 1 : Nat) : Int)) b
    rw [ih, Nat.cast_add, Nat.cast_one, h]
    rfl

theorem map_fst_numbered (k : Int) (l : List String) :
    (numbered k l).map Prod.fst = l := by
  induction l generalizing k with
  | nil => rfl
  | cons p ps ih => simp [numbered, ih]

theorem length_numbered (k : Int) (l : List String) :
    (numbered k l).length = l.length := by
  rw [← List.length_map (numbered k l) Prod.fst, map_fst_numbered]

theorem range_of_mem_numbered (k : Int) (l : List String) (p : String) (i : Int)
    (h : (p, i) ∈ numbered k l) : k ≤ i ∧ i < k + l.length := by
  induction l generalizing k with
  | nil => simp [numbered] at h
  | cons q qs ih =>
    simp only [numbered, List.mem_cons, Prod.mk.injEq] at h
    simp only [List.length_cons, Nat.cast_add, Nat.cast_one]
    rcases h with ⟨-, rfl⟩ | h
    · omega
    · have := ih (k + 1) h
      omega

theorem numbered_inj (k : Int) (l : List String) (p q : String) (i : Int)
    (hp : (p, i) ∈ numbered k l) (hq : (q, i) ∈ numbered k l) : p = q := by
  induction l generalizing k with
  | nil => simp [numbered] at hp
  | cons r rs ih =>
    simp only [numbered, List.mem_cons, Prod.mk.injEq] at hp hq
    rcases hp with ⟨rfl, rfl⟩ | hp <;> rcases hq with ⟨rfl, hq⟩ | hq
    · rfl
    · have := (range_of_mem_numbered _ _ _ _ hq).1
      omega
    · have := (range_of_mem_numbered _ _ _ _ hp).1
      omega
    · exact ih (k + 1) hp hq

theorem exists_of_range_numbered (k : Int) (l : List String) (i : Int)
    (h0 : k ≤ i) (h1 : i < k + l.length) : ∃ p, (p, i) ∈ numbered k l := by
  induction l generalizing k with
  | nil => simp at h1; omega
  | cons q qs ih =>
    simp only [List.length_cons, Nat.cast_add, Nat.cast_one] at h1
    by_cases hk : i = k
    · exact ⟨q, by simp [numbered, hk]⟩
    · obtain ⟨p, hp⟩ := ih (k + 1) (by omega) (by omega)
      exact ⟨p, by simp [numbered, hp]⟩

/-! ## The handlers, case by case -/

theorem body_error (hs : server) (err : String) :
    generateHash.body hs (.error err) = (hs, .error 500 err, none) := rfl

theorem body_empty (hs : server) :
    generateHash.body hs (.ok "") = (hs, .error 500 ERROR_PASSWORD_EMPTY, none) := by
  simp [generateHash.body, bytes]

theorem body_known (hs : server) (p : String) (hp : p ≠ "")
    (h : mapGet hs.passwordMap p ≠ 0) :
    generateHash.body hs (.ok p) = (hs, .idGenerated (mapGet hs.passwordMap p), none) := by
  have hb : (bytes p).length ≠ 0 := fun hb => hp ((length_bytes_eq_zero p).1 hb)
  simp [generateHash.body, hb, h]

theorem body_new (hs : server) (p : String) (hp : p ≠ "")
    (h : mapGet hs.passwordMap p = 0) :
    generateHash.body hs (.ok p) =
      ({ hs with
          passwordMap := mapSet hs.passwordMap p ((hs.hashes.length : Int) + 1)
          hashes := hs.hashes ++ [""] },
        .idGenerated ((hs.hashes.length : Int) + 1),
        some { id := (hs.hashes.length : Int) + 1, password := p }) := by
  have hb : (bytes p).length ≠ 0 := fun hb => hp ((length_bytes_eq_zero p).1 hb)
  simp [generateHash.body, hb, h]

theorem body_totals (hs : server) (form : Except String String) :
    (generateHash.body hs form).1.totalRequests = hs.totalRequests
      ∧ (generateHash.body hs form).1.totalTime = hs.totalTime := by
  rcases form with err | p
  · exact ⟨rfl, rfl⟩
  · by_cases hp : p = ""
    · subst hp
      rw [body_empty]
      exact ⟨rfl, rfl⟩
    · by_cases h : mapGet hs.passwordMap p = 0
      · rw [body_new hs p hp h]
        exact ⟨rfl, rfl⟩
      · rw [body_known hs p hp h]
        exact ⟨rfl, rfl⟩

theorem startHash_body_ok (hs : server) (id : Int) (p x : String)
    (h : index hs.hashes (id - 1) = some x) :
    startHash.body hs id p
      = .ok { hs with hashes := hs.hashes.set (id - 1).toNat (SHA512 p) } := by
  simp [startHash.body, assign_of_index _ _ _ _ h]

theorem passwords_append (tr : List Event) (e : Event) :
    passwords (tr ++ [e]) = passwords tr ++ e.password.toList := by
  unfold passwords
  rw [List.filterMap_append]
  cases h : e.password <;> simp [List.filterMap, h]

theorem submissions_append (tr : List Event) (e : Event) :
    submissions (tr ++ [e]) = submissions tr + if e.isSubmit then 1 else 0 := by
  unfold submissions
  rw [List.countP_append]
  congr 1
  cases h : e.isSubmit <;> simp [List.countP_cons, h]

theorem run_append (s : System) (tr tr2 : List Event) :
    run s (tr ++ tr2) = run (run s tr) tr2 := by
  simp [run, List.foldl_append]

theorem Inv.init : Inv [] System.init := by
  constructor <;> simp [System.init, server.init, passwords, distinct, numbered,
    submissions, wrap64]

theorem Inv.nodup_keys {tr : List Event} {s : System} (h : Inv tr s) :
    (s.hs.passwordMap.map Prod.fst).Nodup := by
  rw [h.map, map_fst_numbered]
  exact nodup_distinct _

theorem Inv.keys {tr : List Event} {s : System} (h : Inv tr s) (p : String) :
    p ∈ s.hs.passwordMap.map Prod.fst ↔ p ∈ passwords tr := by
  rw [h.map, map_fst_numbered, mem_distinct]

theorem Inv.range {tr : List Event} {s : System} (h : Inv tr s) (p : String) (i : Int)
    (hm : (p, i) ∈ s.hs.passwordMap) : 1 ≤ i ∧ i ≤ s.hs.hashes.length := by
  rw [h.map] at hm
  have := range_of_mem_numbered _ _ _ _ hm
  rw [h.len]
  omega

theorem Inv.mapGet_eq_zero {tr : List Event} {s : System} (h : Inv tr s) (p : String) :
    mapGet s.hs.passwordMap p = 0 ↔ p ∉ passwords tr := by
  constructor
  · intro h0 hp
    obtain ⟨e, he, rfl⟩ := List.mem_map.1 ((h.keys _).2 hp)
    obtain ⟨q, i⟩ := e
    have := mapGet_of_mem _ _ _ h.nodup_keys he
    have := h.range _ _ he
    simp only at h0
    omega
  · intro hp
    exact mapGet_of_not_mem _ _ (fun hk => hp ((h.keys _).1 hk))

theorem Inv.same_id {tr : List Event} {s : System} (h : Inv tr s) (t u : Task)
    (ht : t ∈ s.started) (hu : u ∈ s.started) (hid : t.id = u.id) : t = u := by
  rw [h.started, h.map] at ht hu
  obtain ⟨⟨p, i⟩, hp, rfl⟩ := List.mem_map.1 ht
  obtain ⟨⟨q, j⟩, hq, rfl⟩ := List.mem_map.1 hu
  simp only [taskOf] at hid
  subst hid
  rw [numbered_inj _ _ _ _ _ hp hq]

theorem Inv.nodup_started {tr : List Event} {s : System} (h : Inv tr s) :
    s.started.Nodup := by
  rw [h.started]
  refine List.Nodup.map ?_ (List.Nodup.of_map Prod.fst h.nodup_keys)
  rintro ⟨p, i⟩ ⟨q, j⟩ hpq
  simp only [taskOf, Task.mk.injEq] at hpq
  simp [hpq.1, hpq.2]

/-- A change of the counters and of the goroutines in their deferred functions
keeps the part of the invariant that is about jobs. -/
theorem Inv.of_same_jobs {tr tr2 : List Event} {s s2 : System} (h : Inv tr s)
    (hp : distinct (passwords tr2) = distinct (passwords tr))
    (h1 : s2.hs.hashes = s.hs.hashes)
    (h2 : s2.hs.passwordMap = s.hs.passwordMap) (h3 : s2.sleeping = s.sleeping)
    (h4 : s2.started = s.started) (h5 : s2.crashed = s.crashed)
    (h6 : s2.submitting ≤ submissions tr2)
    (h7 : s2.hs.totalRequests
      = wrap64 ((submissions tr2 - s2.submitting : Nat) : Int)) : Inv tr2 s2 := by
  constructor
  · rw [h5, h.alive]
  · rw [h2, hp, h.map]
  · rw [h1, hp, h.len]
  · rw [h4, h2, h.started]
  · rw [h3, h4]; exact h.sub
  · rw [h3, h1]; exact h.pending
  · rw [h3, h4, h1]; exact h.ready
  · exact h6
  · exact h7

theorem Inv.step_submit_same {tr : List Event} {s : System} (h : Inv tr s)
    (form : Except String String)
    (hp : distinct (passwords (tr ++ [.submit form])) = distinct (passwords tr))
    (hb : generateHash.body s.hs form
      = (s.hs, (generateHash.body s.hs form).2.1, none)) :
    Inv (tr ++ [.submit form]) (step s (.submit form)) := by
  have hs : step s (.submit form)
      = { s with submitting := s.submitting + 1 } := by
    simp only [step, h.alive, Bool.false_eq_true, if_false]
    rw [hb]
    simp
  have hsub : submissions (tr ++ [.submit form]) = submissions tr + 1 := by
    simp [submissions_append, Event.isSubmit]
  have hin := h.inflight
  rw [hs]
  refine h.of_same_jobs hp rfl rfl rfl rfl rfl ?_ ?_
  · simp only [hsub]
    omega
  · simp only [hsub]
    rw [h.total]
    congr 2
    omega

theorem Inv.step_submit_new {tr : List Event} {s : System} (h : Inv tr s)
    (p : String) (hp : p ≠ "") (hnew : p ∉ passwords tr) :
    Inv (tr ++ [.submit (.ok p)]) (step s (.submit (.ok p))) := by
  have h0 := (h.mapGet_eq_zero p).2 hnew
  have hk : p ∉ s.hs.passwordMap.map Prod.fst := fun hk => hnew ((h.keys p).1 hk)
  have hs : step s (.submit (.ok p))
      = { s with
          hs := { s.hs with
            passwordMap := s.hs.passwordMap ++ [(p, (s.hs.hashes.length : Int) + 1)]
            hashes := s.hs.hashes ++ [""] }
          submitting := s.submitting + 1
          sleeping := s.sleeping ++ [⟨(s.hs.hashes.length : Int) + 1, p⟩]
          started := s.started ++ [⟨(s.hs.hashes.length : Int) + 1, p⟩] } := by
    simp only [step, h.alive, Bool.false_eq_true, if_false]
    rw [body_new s.hs p hp h0, mapSet_of_not_mem _ _ _ hk]
    simp
  have hpw : passwords (tr ++ [.submit (.ok p)]) = passwords tr ++ [p] := by
    simp [passwords_append, Event.password, hp]
  have hd : distinct (passwords tr ++ [p]) = distinct (passwords tr) ++ [p] := by
    rw [distinct_append_singleton, if_neg]
    rwa [mem_distinct]
  have hsub : submissions (tr ++ [.submit (.ok p)]) = submissions tr + 1 := by
    simp [submissions_append, Event.isSubmit]
  have hin := h.inflight
  have hnot : (⟨(s.hs.hashes.length : Int) + 1, p⟩ : Task) ∉ s.started := by
    rw [h.started]
    intro hm
    obtain ⟨⟨q, i⟩, hq, heq⟩ := List.mem_map.1 hm
    simp only [taskOf, Task.mk.injEq] at heq
    exact hk (List.mem_map.2 ⟨(q, i), hq, heq.2⟩)
  rw [hs]
  constructor
  · exact h.alive
  · simp only [hpw, hd, numbered_append, numbered, h.map, h.len]
    congr 3
    ring
  · simp [hpw, hd, h.len]
  · simp [h.started, taskOf]
  · exact List.Sublist.append h.sub (List.Sublist.refl _)
  · intro t ht
    rcases List.mem_append.1 ht with ht | ht
    · exact index_append _ _ _ _ (h.pending t ht)
    · rw [List.mem_singleton.1 ht]
      exact index_append_new _ _
  · intro t ht hns
    simp only [List.mem_append, List.mem_singleton, not_or] at ht hns
    rcases ht with ht | ht
    · exact index_append _ _ _ _ (h.ready t ht hns.1)
    · exact absurd ht hns.2
  · simp only [hsub]
    omega
  · simp only [hsub]
    rw [h.total]
    congr 2
    omega

theorem Inv.step_submit {tr : List Event} {s : System} (h : Inv tr s)
    (form : Except String String) :
    Inv (tr ++ [.submit form]) (step s (.submit form)) := by
  rcases form with err | p
  · exact h.step_submit_same _ (by simp [passwords_append, Event.password]) rfl
  · by_cases hp : p = ""
    · subst hp
      exact h.step_submit_same _ (by simp [passwords_append, Event.password])
        (by rw [body_empty])
    · by_cases hnew : p ∈ passwords tr
      · have h0 : mapGet s.hs.passwordMap p ≠ 0 := fun h0 =>
          (h.mapGet_eq_zero p).1 h0 hnew
        refine h.step_submit_same (.ok p) ?_ (by rw [body_known _ _ hp h0])
        have hpw : passwords (tr ++ [.submit (.ok p)]) = passwords tr ++ [p] := by
          simp [passwords_append, Event.password, hp]
        rw [hpw, distinct_append_singleton, if_pos]
        rwa [mem_distinct]
      · exact h.step_submit_new p hp hnew

theorem Inv.step_submitted {tr : List Event} {s : System} (h : Inv tr s)
    (elapsed : Int) :
    Inv (tr ++ [.submitted elapsed]) (step s (.submitted elapsed)) := by
  have hsub : submissions (tr ++ [.submitted elapsed]) = submissions tr := by
    simp [submissions_append, Event.isSubmit]
  have hpw : passwords (tr ++ [.submitted elapsed]) = passwords tr := by
    simp [passwords_append, Event.password]
  have hin := h.inflight
  by_cases h0 : s.submitting = 0
  · have hs : step s (.submitted elapsed) = s := by
      simp [step, h.alive, h0]
    rw [hs]
    exact h.of_same_jobs (by rw [hpw]) rfl rfl rfl rfl rfl (by rw [hsub]; exact hin)
      (by rw [hsub]; exact h.total)
  · have hs : step s (.submitted elapsed)
        = { s with
            hs := generateHash.deferred s.hs elapsed
            submitting := s.submitting - 1 } := by
      simp [step, h.alive, h0]
    rw [hs]
    refine h.of_same_jobs (by rw [hpw]) rfl rfl rfl rfl rfl ?_ ?_
    · simp only [hsub]
      omega
    · simp only [hsub, generateHash.deferred]
      rw [h.total, wrap64_add_wrap64]
      congr 1
      omega

theorem Inv.step_finished {tr : List Event} {s : System} (h : Inv tr s)
    (elapsed : Int) :
    Inv (tr ++ [.finished elapsed]) (step s (.finished elapsed)) := by
  have hsub : submissions (tr ++ [.finished elapsed]) = submissions tr := by
    simp [submissions_append, Event.isSubmit]
  have hpw : passwords (tr ++ [.finished elapsed]) = passwords tr := by
    simp [passwords_append, Event.password]
  have hin := h.inflight
  by_cases h0 : s.billing = 0
  · have hs : step s (.finished elapsed) = s := by
      simp [step, h.alive, h0]
    rw [hs]
    exact h.of_same_jobs (by rw [hpw]) rfl rfl rfl rfl rfl (by rw [hsub]; exact hin)
      (by rw [hsub]; exact h.total)
  · have hs : step s (.finished elapsed)
        = { s with
            hs := startHash.deferred s.hs elapsed
            billing := s.billing - 1 } := by
      simp [step, h.alive, h0]
    rw [hs]
    exact h.of_same_jobs (by rw [hpw]) rfl rfl rfl rfl rfl (by rw [hsub]; exact hin)
      (by rw [hsub]; exact h.total)

theorem step_publish {tr : List Event} {s : System} (h : Inv tr s) (t : Task)
    (ht : t ∈ s.sleeping) :
    step s (.publish t)
      = { s with
          hs := { s.hs with hashes := s.hs.hashes.set (t.id - 1).toNat (SHA512 t.password) }
          sleeping := s.sleeping.erase t
          billing := s.billing + 1 } := by
  simp only [step, h.alive, Bool.false_eq_true, if_false, ht, if_true]
  rw [startHash_body_ok _ _ _ _ (h.pending t ht)]

theorem Inv.next_publish {tr : List Event} {s : System} (h : Inv tr s) (t : Task) :
    Inv (tr ++ [.publish t]) (step s (.publish t)) := by
  have hsub : submissions (tr ++ [.publish t]) = submissions tr := by
    simp [submissions_append, Event.isSubmit]
  have hpw : passwords (tr ++ [.publish t]) = passwords tr := by
    simp [passwords_append, Event.password]
  by_cases ht : t ∈ s.sleeping
  · have hnd : s.sleeping.Nodup := h.nodup_started.sublist h.sub
    have hpend := h.pending t ht
    rw [step_publish h t ht]
    constructor
    · exact h.alive
    · rw [hpw]; exact h.map
    · simp [hpw, h.len]
    · exact h.started
    · exact (List.erase_sublist t s.sleeping).trans h.sub
    · intro u hu
      have hu2 := (hnd.mem_erase_iff).1 hu
      have hid : u.id ≠ t.id := fun hid =>
        hu2.1 (h.same_id u t (h.sub.subset hu2.2) (h.sub.subset ht) hid)
      show index (s.hs.hashes.set (t.id - 1).toNat (SHA512 t.password)) (u.id - 1) = _
      rw [index_set _ _ _ _ _ hpend, if_neg (by omega)]
      exact h.pending u hu2.2
    · intro u hu hns
      show index (s.hs.hashes.set (t.id - 1).toNat (SHA512 t.password)) (u.id - 1) = _
      rw [index_set _ _ _ _ _ hpend]
      by_cases hut : u = t
      · subst hut
        simp
      · have hid : u.id ≠ t.id := fun hid =>
          hut (h.same_id u t hu (h.sub.subset ht) hid)
        rw [if_neg (by omega)]
        refine h.ready u hu (fun hus => hns ?_)
        exact (hnd.mem_erase_iff).2 ⟨hut, hus⟩
    · rw [hsub]; exact h.inflight
    · rw [hsub]; exact h.total
  · have hs : step s (.publish t) = s := by
      simp [step, h.alive, ht]
    rw [hs]
    exact h.of_same_jobs (by rw [hpw]) rfl rfl rfl rfl rfl (by rw [hsub]; exact h.inflight)
      (by rw [hsub]; exact h.total)

theorem Inv.next {tr : List Event} {s : System} (h : Inv tr s) (e : Event) :
    Inv (tr ++ [e]) (step s e) := by
  cases e with
  | arrive w =>
    have hs : step s (.arrive w) = { s with hs := { s.hs with w := w } } := by
      simp [step, h.alive]
    rw [hs]
    refine h.of_same_jobs ?_ rfl rfl rfl rfl rfl ?_ ?_
    · simp [passwords_append, Event.password]
    · simp only [submissions_append, Event.isSubmit]
      exact h.inflight
    · simp only [submissions_append, Event.isSubmit]
      exact h.total
  | submit form => exact h.step_submit form
  | submitted elapsed => exact h.step_submitted elapsed
  | publish t => exact h.next_publish t
  | finished elapsed => exact h.step_finished elapsed

theorem Inv.after {tr : List Event} {s : System} (h : Inv tr s) (tr2 : List Event) :
    Inv (tr ++ tr2) (run s tr2) := by
  induction tr2 using List.reverseRecOn with
  | nil => simpa [run] using h
  | append_singleton tr2 e ih =>
    rw [run_append, ← List.append_assoc]
    exact ih.next e

/-- The invariant holds after every execution from the start. -/
theorem inv_run (tr : List Event) : Inv tr (run System.init tr) := by
  simpa using Inv.init.after tr

/-! ## Entries that last -/

theorem passwords_append_list (tr tr2 : List Event) :
    passwords (tr ++ tr2) = passwords tr ++ passwords tr2 := by
  simp [passwords, List.filterMap_append]

/-- The entries of `passwordMap` stay where they are when the execution goes on. -/
theorem map_extends (tr tr2 : List Event) :
    (run System.init tr).hs.passwordMap <+: (run System.init (tr ++ tr2)).hs.passwordMap := by
  rw [(inv_run tr).map, (inv_run (tr ++ tr2)).map, passwords_append_list]
  obtain ⟨rest, hrest⟩ := distinct_extends (passwords tr) (passwords tr2)
  rw [← hrest, numbered_append]
  exact List.prefix_append _ _

/-- One event leaves an entry of `hashes` that holds a digest as it is. -/
theorem Inv.step_entry {tr : List Event} {s : System} (h : Inv tr s) (e : Event)
    (i : Int) (x : String) (hx : x ≠ "") (hi : index s.hs.hashes i = some x) :
    index (step s e).hs.hashes i = some x := by
  cases e with
  | arrive w => simpa [step, h.alive] using hi
  | submit form =>
    have hs : (step s (.submit form)).hs = (generateHash.body s.hs form).1 := by
      simp [step, h.alive]
    rw [hs]
    rcases form with err | p
    · exact hi
    · by_cases hp : p = ""
      · subst hp
        rw [body_empty]
        exact hi
      · by_cases h0 : mapGet s.hs.passwordMap p = 0
        · rw [body_new _ _ hp h0]
          exact index_append _ _ _ _ hi
        · rw [body_known _ _ hp h0]
          exact hi
  | submitted elapsed =>
    by_cases h0 : s.submitting = 0
    · simpa [step, h.alive, h0] using hi
    · simpa [step, h.alive, h0, generateHash.deferred] using hi
  | publish t =>
    by_cases ht : t ∈ s.sleeping
    · rw [step_publish h t ht]
      show index (s.hs.hashes.set (t.id - 1).toNat (SHA512 t.password)) i = _
      have hpend := h.pending t ht
      rw [index_set _ _ _ _ _ hpend, if_neg]
      · exact hi
      · rintro rfl
        rw [hpend] at hi
        exact hx (Option.some.inj hi).symm
    · simpa [step, h.alive, ht] using hi
  | finished elapsed =>
    by_cases h0 : s.billing = 0
    · simpa [step, h.alive, h0] using hi
    · simpa [step, h.alive, h0, startHash.deferred] using hi

theorem Inv.run_entry {tr : List Event} {s : System} (h : Inv tr s) (tr2 : List Event)
    (i : Int) (x : String) (hx : x ≠ "") (hi : index s.hs.hashes i = some x) :
    index (run s tr2).hs.hashes i = some x := by
  induction tr2 using List.reverseRecOn with
  | nil => simpa [run] using hi
  | append_singleton tr2 e ih =>
    rw [run_append]
    exact (h.after tr2).step_entry e i x hx ih

theorem lookupHash_out_of_range (hs later : server) (id : Int)
    (h : (hs.hashes.length : Int) < id) :
    lookupHash hs later (some id) = .panic .indexOutOfRange := by
  have h0 : ¬ id ≤ 0 := by omega
  have hi : index hs.hashes (id - 1) = none := by
    unfold index
    rw [if_neg (by omega), List.getElem?_eq_none]
    omega
  simp [lookupHash, h0, hi]

/-! ## The claims -/

/-- C1. Monotonic dense ids: after any execution from the initial state, the
call of `generateHash` that submits a non-empty password not submitted before
replies with the id `k`, where `k` is the number of distinct passwords
submitted up to and including this call. -/
theorem monotonic_dense_ids (tr : List Event) (p : String) (elapsed : Int)
    (hp : p ≠ "") (hnew : p ∉ passwords tr) :
    (generateHash (run System.init tr).hs (.ok p) elapsed).2.1
      = .idGenerated ((passwords (tr ++ [.submit (.ok p)])).toFinset.card : Int)
      ∧ ((passwords (tr ++ [.submit (.ok p)])).toFinset.card
        = (passwords tr).toFinset.card + 1) := by
  have h := inv_run tr
  have h0 := (h.mapGet_eq_zero p).2 hnew
  have hpw : passwords (tr ++ [.submit (.ok p)]) = passwords tr ++ [p] := by
    simp [passwords_append, Event.password, hp]
  have hd : distinct (passwords tr ++ [p]) = distinct (passwords tr) ++ [p] := by
    rw [distinct_append_singleton, if_neg]
    rwa [mem_distinct]
  have hcard : (passwords (tr ++ [.submit (.ok p)])).toFinset.card
      = (passwords tr).toFinset.card + 1 := by
    rw [hpw, ← length_distinct, hd, List.length_append, length_distinct]
    rfl
  refine ⟨?_, hcard⟩
  simp only [generateHash]
  rw [body_new _ _ hp h0, hcard, h.len, length_distinct]
  simp

theorem monotonic_dense_ids_witness :
    (generateHash (run System.init [.submit (.ok "alpha"), .submit (.ok "beta"),
        .submit (.ok "alpha")]).hs (.ok "gamma") 7).2.1
      = .idGenerated ((passwords ([.submit (.ok "alpha"), .submit (.ok "beta"),
          .submit (.ok "alpha")] ++ [.submit (.ok "gamma")])).toFinset.card : Int)
      ∧ ((passwords ([.submit (.ok "alpha"), .submit (.ok "beta"),
          .submit (.ok "alpha")] ++ [.submit (.ok "gamma")])).toFinset.card
        = (passwords [.submit (.ok "alpha"), .submit (.ok "beta"),
          .submit (.ok "alpha")]).toFinset.card + 1) :=
  monotonic_dense_ids _ "gamma" 7 (by decide) (by decide)

/-- The tasks started along an execution: one for each distinct password. -/
theorem started_passwords (tr : List Event) :
    (run System.init tr).started.map Task.password = distinct (passwords tr) := by
  have h := inv_run tr
  rw [h.started, List.map_map, ← map_fst_numbered 1 (distinct (passwords tr)), ← h.map]
  rfl

/-- C2. Idempotent resubmission: when `p` is a non-empty password, first
submitted after the events of `tr`, a call of `generateHash` with `p` in any
later state replies with the id of that first call, leaves `hashes` and
`passwordMap` as they are and starts no task; and along the whole execution
exactly one task was started for each password submitted, none for any other. -/
theorem idempotent_resubmission (tr tr2 : List Event) (p : String) (e1 e2 : Int)
    (hp : p ≠ "") (hnew : p ∉ passwords tr) :
    (generateHash (run System.init (tr ++ .submit (.ok p) :: tr2)).hs (.ok p) e2).2.1
        = (generateHash (run System.init tr).hs (.ok p) e1).2.1
      ∧ (generateHash (run System.init (tr ++ .submit (.ok p) :: tr2)).hs (.ok p) e2).1.hashes
        = (run System.init (tr ++ .submit (.ok p) :: tr2)).hs.hashes
      ∧ (generateHash (run System.init (tr ++ .submit (.ok p) :: tr2)).hs (.ok p)
          e2).1.passwordMap
        = (run System.init (tr ++ .submit (.ok p) :: tr2)).hs.passwordMap
      ∧ (generateHash (run System.init (tr ++ .submit (.ok p) :: tr2)).hs (.ok p) e2).2.2
        = none
      ∧ ∀ q, ((run System.init (tr ++ .submit (.ok p) :: tr2)).started.map
          Task.password).count q
        = if q ∈ passwords (tr ++ .submit (.ok p) :: tr2) then 1 else 0 := by
  have h := inv_run tr
  have h2 := inv_run (tr ++ .submit (.ok p) :: tr2)
  have h0 := (h.mapGet_eq_zero p).2 hnew
  have htr : tr ++ .submit (.ok p) :: tr2 = (tr ++ [.submit (.ok p)]) ++ tr2 := by simp
  -- the entry made by the first call
  have hentry : (p, ((run System.init tr).hs.hashes.length : Int) + 1)
      ∈ (run System.init (tr ++ [.submit (.ok p)])).hs.passwordMap := by
    have hk : p ∉ (run System.init tr).hs.passwordMap.map Prod.fst :=
      fun hk => hnew ((h.keys p).1 hk)
    have hstep : (step (run System.init tr) (.submit (.ok p))).hs.passwordMap
        = (run System.init tr).hs.passwordMap
          ++ [(p, ((run System.init tr).hs.hashes.length : Int) + 1)] := by
      simp only [step, h.alive, Bool.false_eq_true, if_false]
      rw [body_new _ _ hp h0, mapSet_of_not_mem _ _ _ hk]
    rw [run_append]
    show _ ∈ (step (run System.init tr) (.submit (.ok p))).hs.passwordMap
    rw [hstep]
    simp
  have hlater : (p, ((run System.init tr).hs.hashes.length : Int) + 1)
      ∈ (run System.init (tr ++ .submit (.ok p) :: tr2)).hs.passwordMap := by
    rw [htr]
    exact (map_extends _ tr2).subset hentry
  have hget := mapGet_of_mem _ _ _ h2.nodup_keys hlater
  have hne : mapGet (run System.init (tr ++ .submit (.ok p) :: tr2)).hs.passwordMap p ≠ 0 := by
    rw [hget]
    omega
  simp only [generateHash]
  rw [body_known _ _ hp hne, body_new _ _ hp h0, hget]
  refine ⟨rfl, rfl, rfl, rfl, ?_⟩
  intro q
  rw [started_passwords]
  by_cases hq : q ∈ passwords (tr ++ .submit (.ok p) :: tr2)
  · rw [if_pos hq]
    exact List.count_eq_one_of_mem (nodup_distinct _) ((mem_distinct _ _).2 hq)
  · rw [if_neg hq]
    exact List.count_eq_zero_of_not_mem (fun hm => hq ((mem_distinct _ _).1 hm))

theorem idempotent_resubmission_witness :
    (generateHash (run System.init ([.submit (.ok "alpha")] ++ .submit (.ok "beta")
        :: [.submit (.ok "gamma"), .publish ⟨2, "beta"⟩])).hs (.ok "beta") 9).2.1
      = .idGenerated 2 :=
  (idempotent_resubmission [.submit (.ok "alpha")]
    [.submit (.ok "gamma"), .publish ⟨2, "beta"⟩] "beta" 5 9 (by decide)
    (by decide)).1.trans (by decide)

/-- C3, as the code has it: a call of `generateHash` with an empty password
(or without the field) replies with `ERROR_PASSWORD_EMPTY`, leaves `hashes` and
`passwordMap` as they are and starts no task; its deferred function still
counts the call, adding one to `totalRequests` and the elapsed time to
`totalTime`. -/
theorem empty_password_counted (hs : server) (elapsed : Int) :
    (generateHash hs (.ok "") elapsed).2.1 = .error 500 ERROR_PASSWORD_EMPTY
      ∧ (generateHash hs (.ok "") elapsed).1.hashes = hs.hashes
      ∧ (generateHash hs (.ok "") elapsed).1.passwordMap = hs.passwordMap
      ∧ (generateHash hs (.ok "") elapsed).2.2 = none
      ∧ (generateHash hs (.ok "") elapsed).1.totalRequests = wrap64 (hs.totalRequests + 1)
      ∧ (generateHash hs (.ok "") elapsed).1.totalTime
        = wrap64 (hs.totalTime + elapsed) := by
  simp only [generateHash]
  rw [body_empty]
  exact ⟨rfl, rfl, rfl, rfl, rfl, rfl⟩

/-- C3 as stated fails: on the initial server a call of `generateHash` with an
empty password that takes 1000 ns does not leave `hashes`, `passwordMap`,
`totalRequests` and `totalTime` all as they were. -/
theorem empty_password_mutates :
    ¬ ((generateHash server.init (.ok "") 1000).2.1 = .error 500 ERROR_PASSWORD_EMPTY
      ∧ (generateHash server.init (.ok "") 1000).1.hashes = server.init.hashes
      ∧ (generateHash server.init (.ok "") 1000).1.passwordMap = server.init.passwordMap
      ∧ (generateHash server.init (.ok "") 1000).1.totalRequests
        = server.init.totalRequests
      ∧ (generateHash server.init (.ok "") 1000).1.totalTime = server.init.totalTime) := by
  decide

/-- C4 fails on the code: after the submissions of "alpha", "beta" and "alpha"
again two jobs exist, and `lookupHash` with the id 3 panics with an index out
of range instead of replying with an error; so it does with the id 1 on the
initial server. -/
theorem lookup_out_of_range_panics :
    lookupHash
        (run System.init [.submit (.ok "alpha"), .submit (.ok "beta"),
          .submit (.ok "alpha")]).hs
        (run System.init [.submit (.ok "alpha"), .submit (.ok "beta"),
          .submit (.ok "alpha")]).hs (some 3)
      = .panic .indexOutOfRange
    ∧ lookupHash server.init server.init (some 1) = .panic .indexOutOfRange := by
  constructor
  · apply lookupHash_out_of_range
    decide
  · apply lookupHash_out_of_range
    decide

theorem div64_of_nonneg (x y : Int) (hx : 0 ≤ x) (hy : 0 < y) :
    div64 x y = x.tdiv y ∧ 0 ≤ x.tdiv y := by
  have h : ¬ (x = -2 ^ 63 ∧ y = -1) := by omega
  refine ⟨?_, Int.tdiv_nonneg hx hy.le⟩
  unfold div64
  rw [if_neg h]

/-- C5. `showStats` panics with a division by zero exactly when `totalRequests`
is 0; when `totalRequests ≥ 1` and `totalTime ≥ 0` it replies with
`Total = totalRequests` and `Average = (totalTime / 1 ms) / totalRequests` in
truncating division, which is the floor of `totalTime / (10^6 * totalRequests)`. -/
theorem showStats_average (hs : server) :
    (showStats hs = .panic .divideByZero ↔ hs.totalRequests = 0)
      ∧ (1 ≤ hs.totalRequests → 0 ≤ hs.totalTime →
        showStats hs = .reply (.stats
            { Total := hs.totalRequests
              Average := (hs.totalTime.tdiv Millisecond).tdiv hs.totalRequests })
          ∧ (hs.totalTime.tdiv Millisecond).tdiv hs.totalRequests
            = ⌊(hs.totalTime : ℚ) / (10 ^ 6 * (hs.totalRequests : ℚ))⌋) := by
  constructor
  · unfold showStats
    split_ifs with h
    · simp [h]
    · simp [h]
  · intro hn ht
    have h0 : hs.totalRequests ≠ 0 := by omega
    have h1 := div64_of_nonneg hs.totalTime Millisecond ht (by decide)
    have h2 := div64_of_nonneg _ hs.totalRequests h1.2 (by omega)
    refine ⟨by simp [showStats, h0, h1.1, h2.1], ?_⟩
    obtain ⟨t, ht2⟩ := Int.eq_ofNat_of_zero_le ht
    obtain ⟨n, hn2⟩ := Int.eq_ofNat_of_zero_le (by omega : 0 ≤ hs.totalRequests)
    rw [ht2, hn2, Int.tdiv_eq_ediv (Int.ofNat_nonneg _) (by decide),
      Int.tdiv_eq_ediv (Int.ediv_nonneg (Int.ofNat_nonneg _) (by decide))
        (Int.ofNat_nonneg _)]
    have hq : ((t : Int) : ℚ) / (10 ^ 6 * ((n : Int) : ℚ))
        = ((t : Int) : ℚ) / ((10 ^ 6 * n : Nat) : ℚ) := by
      push_cast
      rfl
    rw [hq, Rat.floor_intCast_div_natCast]
    show (t : Int) / ((10 ^ 6 : Nat) : Int) / (n : Int) = _
    norm_cast
    exact Nat.div_div_eq_div_mul _ _ _

theorem showStats_average_witness :
    showStats ⟨1, [], [], 3, 10000000000⟩
      = .reply (.stats { Total := 3, Average := 3333 }) :=
  ((showStats_average ⟨1, [], [], 3, 10000000000⟩).2 (by decide) (by decide)).1.trans
    (by decide)

theorem startHash_totals (hs hs1 : server) (id : Int) (p : String) (elapsed : Int)
    (h : startHash hs id p elapsed = .ok hs1) :
    hs1.totalRequests = hs.totalRequests
      ∧ hs1.totalTime = wrap64 (hs.totalTime + elapsed) := by
  unfold startHash startHash.body at h
  cases ha : assign hs.hashes (id - 1) (SHA512 p) with
  | none => simp [ha] at h
  | some l =>
    simp only [ha, Except.ok.injEq] at h
    subst h
    exact ⟨rfl, rfl⟩

/-- C6. The total of the statistics counts submissions only: after any
execution from the initial state with `n ≥ 1` calls of `generateHash` (with
passwords submitted for the first time or again; `n` within the range of the
`int64` counter), any number of background tasks, and no `generateHash` call
still before its deferred function, `showStats` replies with `Total = n`; and
a call of `startHash` adds its elapsed time to `totalTime` and leaves
`totalRequests` as it is. -/
theorem stats_total (tr : List Event)
    (hn : 1 ≤ submissions tr) (hr : (submissions tr : Int) < 2 ^ 63)
    (hdone : (run System.init tr).submitting = 0) :
    (∃ avg, showStats (run System.init tr).hs
        = .reply (.stats { Total := submissions tr, Average := avg }))
      ∧ ∀ (hs hs1 : server) (id : Int) (p : String) (elapsed : Int),
        startHash hs id p elapsed = .ok hs1 →
          hs1.totalRequests = hs.totalRequests
            ∧ hs1.totalTime = wrap64 (hs.totalTime + elapsed) := by
  have h := inv_run tr
  have htotal : (run System.init tr).hs.totalRequests = submissions tr := by
    rw [h.total, hdone, Nat.sub_zero]
    exact wrap64_of_range _ (by omega) hr
  refine ⟨?_, startHash_totals⟩
  have h0 : (run System.init tr).hs.totalRequests ≠ 0 := by
    rw [htotal]
    omega
  refine ⟨div64 (div64 (run System.init tr).hs.totalTime Millisecond)
    (run System.init tr).hs.totalRequests, ?_⟩
  unfold showStats
  rw [if_neg h0, htotal]

theorem stats_total_witness :
    ∃ avg, showStats (run System.init [.submit (.ok "alpha"), .submitted 3000000,
        .submit (.ok "alpha"), .publish ⟨1, "alpha"⟩, .submitted 4000000,
        .finished 5000000000]).hs
      = .reply (.stats { Total := 2, Average := avg }) :=
  (stats_total [.submit (.ok "alpha"), .submitted 3000000,
    .submit (.ok "alpha"), .publish ⟨1, "alpha"⟩, .submitted 4000000,
    .finished 5000000000] (by decide) (by decide) (by decide)).1

theorem base64.digit_mem (v : Nat) : base64.digit v ∈ base64.encodeStd := by
  unfold base64.digit
  have h : v % 64 < base64.encodeStd.length := by
    have : base64.encodeStd.length = 64 := by decide
    omega
  rw [List.getD_eq_getElem _ _ h]
  exact List.getElem_mem h

theorem base64.encode_alphabet (src : List Nat) :
    ∀ c ∈ base64.encode src, c ∈ base64.encodeStd ∨ c = '=' := by
  induction src using base64.encode.induct with
  | case1 => simp [base64.encode]
  | case2 a => simp [base64.encode, base64.digit_mem]
  | case3 a b => simp [base64.encode, base64.digit_mem]
  | case4 a b c rest ih =>
    intro x hx
    simp only [base64.encode, List.mem_cons] at hx
    rcases hx with rfl | rfl | rfl | rfl | hx
    · exact Or.inl (base64.digit_mem _)
    · exact Or.inl (base64.digit_mem _)
    · exact Or.inl (base64.digit_mem _)
    · exact Or.inl (base64.digit_mem _)
    · exact ih x hx

theorem base64.digit_congr (x y : Nat) (h : x % 64 = y % 64) :
    base64.digit x = base64.digit y := by
  simp [base64.digit, h]

theorem lor_shiftLeft (x y k : Nat) (hy : y < 2 ^ k) : (x <<< k) ||| y = x * 2 ^ k + y := by
  rw [Nat.shiftLeft_eq, Nat.mul_comm, ← Nat.mul_add_lt_is_or hy]

/-- The four characters of a group of three bytes. -/
theorem base64.encode_group (a b c : Nat) (hb : b < 256) (hc : c < 256) :
    base64.digit (a >>> 2) = base64.sextet (a * 2 ^ 16 + b * 2 ^ 8 + c) 3
      ∧ base64.digit (((a &&& 3) <<< 4) ||| (b >>> 4))
        = base64.sextet (a * 2 ^ 16 + b * 2 ^ 8 + c) 2
      ∧ base64.digit (((b &&& 15) <<< 2) ||| (c >>> 6))
        = base64.sextet (a * 2 ^ 16 + b * 2 ^ 8 + c) 1
      ∧ base64.digit (c &&& 63) = base64.sextet (a * 2 ^ 16 + b * 2 ^ 8 + c) 0 := by
  have h3 : a &&& 3 = a % 4 := Nat.and_pow_two_sub_one_eq_mod a 2
  have h15 : b &&& 15 = b % 16 := Nat.and_pow_two_sub_one_eq_mod b 4
  have h63 : c &&& 63 = c % 64 := Nat.and_pow_two_sub_one_eq_mod c 6
  have hb4 : b >>> 4 < 2 ^ 4 := by
    rw [Nat.shiftRight_eq_div_pow]
    norm_num
    omega
  have hc6 : c >>> 6 < 2 ^ 2 := by
    rw [Nat.shiftRight_eq_div_pow]
    norm_num
    omega
  unfold base64.sextet
  refine ⟨?_, ?_, ?_, ?_⟩ <;> apply base64.digit_congr
  · rw [Nat.shiftRight_eq_div_pow]
    norm_num
    omega
  · rw [lor_shiftLeft _ _ _ hb4, h3, Nat.shiftRight_eq_div_pow]
    norm_num
    omega
  · rw [lor_shiftLeft _ _ _ hc6, h15, Nat.shiftRight_eq_div_pow]
    norm_num
    omega
  · rw [h63]
    norm_num
    omega

/-- The three characters of a last group of two bytes. -/
theorem base64.encode_pair (a b : Nat) (hb : b < 256) :
    base64.digit (a >>> 2) = base64.sextet (a * 2 ^ 16 + b * 2 ^ 8) 3
      ∧ base64.digit (((a &&& 3) <<< 4) ||| (b >>> 4))
        = base64.sextet (a * 2 ^ 16 + b * 2 ^ 8) 2
      ∧ base64.digit ((b &&& 15) <<< 2) = base64.sextet (a * 2 ^ 16 + b * 2 ^ 8) 1 := by
  have h3 : a &&& 3 = a % 4 := Nat.and_pow_two_sub_one_eq_mod a 2
  have h15 : b &&& 15 = b % 16 := Nat.and_pow_two_sub_one_eq_mod b 4
  have hb4 : b >>> 4 < 2 ^ 4 := by
    rw [Nat.shiftRight_eq_div_pow]
    norm_num
    omega
  unfold base64.sextet
  refine ⟨?_, ?_, ?_⟩ <;> apply base64.digit_congr
  · rw [Nat.shiftRight_eq_div_pow]
    norm_num
    omega
  · rw [lor_shiftLeft _ _ _ hb4, h3, Nat.shiftRight_eq_div_pow]
    norm_num
    omega
  · rw [h15, Nat.shiftLeft_eq]
    norm_num
    omega

/-- The two characters of a last group of one byte. -/
theorem base64.encode_single (a : Nat) :
    base64.digit (a >>> 2) = base64.sextet (a * 2 ^ 16) 3
      ∧ base64.digit ((a &&& 3) <<< 4) = base64.sextet (a * 2 ^ 16) 2 := by
  have h3 : a &&& 3 = a % 4 := Nat.and_pow_two_sub_one_eq_mod a 2
  unfold base64.sextet
  refine ⟨?_, ?_⟩ <;> apply base64.digit_congr
  · rw [Nat.shiftRight_eq_div_pow]
    norm_num
    omega
  · rw [h3, Nat.shiftLeft_eq]
    norm_num
    omega

/-- The encoder computes the encoding of RFC 4648 on every byte string. -/
theorem base64.encode_eq_reference (src : List Nat) (h : ∀ b ∈ src, b < 256) :
    base64.encode src = base64.reference src := by
  induction src using base64.encode.induct with
  | case1 => rfl
  | case2 a =>
    have hg := base64.encode_single a
    simp only [base64.encode, base64.reference, hg.1, hg.2]
  | case3 a b =>
    have hb : b < 256 := h b (by simp)
    have hg := base64.encode_pair a b hb
    simp only [base64.encode, base64.reference, hg.1, hg.2.1, hg.2.2]
  | case4 a b c rest ih =>
    have hb : b < 256 := h b (by simp)
    have hc : c < 256 := h c (by simp)
    have hg := base64.encode_group a b c hb hc
    have hrest : ∀ x ∈ rest, x < 256 := fun x hx => h x (by simp [hx])
    simp only [base64.encode, base64.reference, hg.1, hg.2.1, hg.2.2.1, hg.2.2.2,
      ih hrest]

theorem sha512.beBytes_lt (n x : Nat) : ∀ b ∈ sha512.beBytes n x, b < 256 := by
  induction n with
  | zero => simp [sha512.beBytes]
  | succ n ih =>
    intro b hb
    simp only [sha512.beBytes, List.mem_cons] at hb
    rcases hb with rfl | hb
    · exact Nat.mod_lt _ (by decide)
    · exact ih b hb

theorem sha512.Sum_lt (msg : List Nat) : ∀ b ∈ sha512.Sum msg, b < 256 := by
  intro b hb
  simp only [sha512.Sum, sha512.output, List.mem_append] at hb
  rcases hb with ((((((hb | hb) | hb) | hb) | hb) | hb) | hb) | hb <;>
    exact sha512.beBytes_lt _ _ b hb

/-- The test vectors of RFC 4648, section 10. -/
theorem base64.rfc_vectors :
    base64.EncodeToString (bytes "") = ""
      ∧ base64.EncodeToString (bytes "f") = "Zg=="
      ∧ base64.EncodeToString (bytes "fo") = "Zm8="
      ∧ base64.EncodeToString (bytes "foo") = "Zm9v"
      ∧ base64.EncodeToString (bytes "foob") = "Zm9vYg=="
      ∧ base64.EncodeToString (bytes "fooba") = "Zm9vYmE="
      ∧ base64.EncodeToString (bytes "foobar") = "Zm9vYmFy" := by
  decide

set_option maxRecDepth 100000 in
/-- The digest of the empty message. -/
theorem SHA512_empty :
    SHA512 ""
      = "z4PhNX7vuL3xVChQ1m2AB9Yg5AULVxXcg/SpIdNs6c5H0NE8XYXysP+DGNKHfuwvY7kxvUdBeoGlODJ6+SfaPg==" := by
  decide

set_option maxRecDepth 100000 in
/-- The one-block test vector of FIPS 180-4 for SHA-512, in Base64. -/
theorem SHA512_abc :
    SHA512 "abc"
      = "3a81oZNherrMQXNJriBBMRLm+k6JqX6iCp7u5ktV05ohkpkqJ0/BqDa6PCOj/uu9RU1EI2Q86A4qmslPpUyknw==" := by
  decide

set_option maxRecDepth 100000 in
/-- The two-block test vector of FIPS 180-4 for SHA-512, in Base64. -/
theorem SHA512_two_blocks :
    SHA512 "abcdefghbcdefghicdefghijdefghijkefghijklfghijklmghijklmnhijklmnoijklmnopjklmnopqklmnopqrlmnopqrsmnopqrstnopqrstu"
      = "jpWbddrjE9qM9PcoFPwUP493ecbrn3+hcpmurbaIkBhQHSieSQD35DMbmd7EtUM6x9Mp7rbdJlReluVbh0vpCQ==" := by
  decide

set_option maxRecDepth 100000 in
/-- A string with characters of two, three and four bytes in UTF-8. -/
theorem SHA512_utf8 :
    SHA512 "é€😀"
      = "TcjWgtJHsoY6Kmc/sLd/Gg77RxW7/kZ1dDM+T3F5CwgAeyK4z+veJzg/TwRRdW86gRqmhjXt0dGStB5/pR9xkg==" := by
  decide

set_option maxRecDepth 100000 in
/-- The test of `jumpCloud_test.go`. -/
theorem SHA512_angryMonkey :
    SHA512 "angryMonkey"
      = "ZEHhWB65gUlzdVwtDQArEyx+KVLzp/aTaRaPlBzYRIFj6vjFdqEb0Q5B8zVKCZ0vKbZPZklJz0Fd7su2A+gf7Q==" := by
  decide

/-- C7. The digest function is the padded standard-alphabet Base64 encoding of
the 64-byte SHA-512 digest of the bytes of its argument, a function of the
argument alone: it is the encoding of the digest in the words of RFC 4648, 88
characters of the standard alphabet and `=`; it gives the digests of the test
vectors of FIPS 180-4 (the empty message, "abc", the message of two blocks)
and of a string of multi-byte characters, and for "angryMonkey" the string
the test expects. -/
theorem SHA512_reference (text : String) :
    SHA512 text = base64.EncodeToString (sha512.Sum (bytes text))
      ∧ (SHA512 text).data = base64.reference (sha512.Sum (bytes text))
      ∧ (sha512.Sum (bytes text)).length = 64
      ∧ (SHA512 text).length = 88
      ∧ (∀ c ∈ (SHA512 text).data, c ∈ base64.encodeStd ∨ c = '=')
      ∧ SHA512 ""
        = "z4PhNX7vuL3xVChQ1m2AB9Yg5AULVxXcg/SpIdNs6c5H0NE8XYXysP+DGNKHfuwvY7kxvUdBeoGlODJ6+SfaPg=="
      ∧ SHA512 "abc"
        = "3a81oZNherrMQXNJriBBMRLm+k6JqX6iCp7u5ktV05ohkpkqJ0/BqDa6PCOj/uu9RU1EI2Q86A4qmslPpUyknw=="
      ∧ SHA512 "abcdefghbcdefghicdefghijdefghijkefghijklfghijklmghijklmnhijklmnoijklmnopjklmnopqklmnopqrlmnopqrsmnopqrstnopqrstu"
        = "jpWbddrjE9qM9PcoFPwUP493ecbrn3+hcpmurbaIkBhQHSieSQD35DMbmd7EtUM6x9Mp7rbdJlReluVbh0vpCQ=="
      ∧ SHA512 "é€😀"
        = "TcjWgtJHsoY6Kmc/sLd/Gg77RxW7/kZ1dDM+T3F5CwgAeyK4z+veJzg/TwRRdW86gRqmhjXt0dGStB5/pR9xkg=="
      ∧ SHA512 "angryMonkey"
        = "ZEHhWB65gUlzdVwtDQArEyx+KVLzp/aTaRaPlBzYRIFj6vjFdqEb0Q5B8zVKCZ0vKbZPZklJz0Fd7su2A+gf7Q==" :=
  ⟨rfl, base64.encode_eq_reference _ (sha512.Sum_lt _), sha512.length_Sum _,
    length_SHA512 text, base64.encode_alphabet _, SHA512_empty, SHA512_abc,
    SHA512_two_blocks, SHA512_utf8, SHA512_angryMonkey⟩

theorem body_w (hs : server) (form : Except String String) :
    (generateHash.body hs form).1.w = hs.w := by
  rcases form with err | p
  · rfl
  · by_cases hp : p = ""
    · subst hp
      rw [body_empty]
    · by_cases h : mapGet hs.passwordMap p = 0
      · rw [body_new hs p hp h]
      · rw [body_known hs p hp h]

theorem arrived_append (tr : List Event) (e : Event) :
    arrived (tr ++ [e]) = match e with | .arrive w => w | _ => arrived tr := by
  simp [arrived, List.foldl_append]

/-- The field `w` holds the writer of the request that arrived last. -/
theorem writer_run (tr : List Event) : (run System.init tr).hs.w = arrived tr := by
  induction tr using List.reverseRecOn with
  | nil => rfl
  | append_singleton tr e ih =>
    have h := inv_run tr
    rw [run_append, arrived_append]
    show (step (run System.init tr) e).hs.w = _
    cases e with
    | arrive w => simp [step, h.alive]
    | submit form =>
      have hs : (step (run System.init tr) (.submit form)).hs
          = (generateHash.body (run System.init tr).hs form).1 := by
        simp [step, h.alive]
      rw [hs, body_w]
      exact ih
    | submitted elapsed =>
      by_cases h0 : (run System.init tr).submitting = 0
      · simpa [step, h.alive, h0] using ih
      · simpa [step, h.alive, h0, generateHash.deferred] using ih
    | publish t =>
      by_cases ht : t ∈ (run System.init tr).sleeping
      · rw [step_publish h t ht]
        exact ih
      · simpa [step, h.alive, ht] using ih
    | finished elapsed =>
      by_cases h0 : (run System.init tr).billing = 0
      · simpa [step, h.alive, h0] using ih
      · simpa [step, h.alive, h0, startHash.deferred] using ih

/-- C8, as the code has it: after any execution `tr` from the initial state
and for an id from 1 to `len(hashes)`, exactly one password `p` has this id in
`passwordMap`; `lookupHash` waits when `hashes[id-1]` is empty, and otherwise
`hashes[id-1]` is the non-empty string `SHA512 p` and `lookupHash` prints it,
whatever happens (`tr2`) between its test under the lock and lines 144-145. It
prints to the writer in `hs.w`, which is the writer of the request that
arrived last: the retriever when no request has arrived after it. -/
theorem lookup_returns_digest (tr tr2 : List Event) (id : Int) (h1 : 1 ≤ id)
    (h2 : id ≤ (run System.init tr).hs.hashes.length) :
    ∃ p, mapGet (run System.init tr).hs.passwordMap p = id
      ∧ (∀ q, mapGet (run System.init tr).hs.passwordMap q = id → q = p)
      ∧ SHA512 p ≠ ""
      ∧ ((index (run System.init tr).hs.hashes (id - 1) = some ""
          ∧ lookupHash (run System.init tr).hs (run System.init (tr ++ tr2)).hs (some id)
            = .waiting)
        ∨ (index (run System.init tr).hs.hashes (id - 1) = some (SHA512 p)
          ∧ lookupHash (run System.init tr).hs (run System.init (tr ++ tr2)).hs (some id)
            = .printed (arrived (tr ++ tr2)) (.body (SHA512 p)))) := by
  have h := inv_run tr
  have hlen := h.len
  obtain ⟨p, hp⟩ := exists_of_range_numbered 1 (distinct (passwords tr)) id h1 (by omega)
  have hmem : (p, id) ∈ (run System.init tr).hs.passwordMap := by rw [h.map]; exact hp
  have h0 : ¬ id ≤ 0 := by omega
  refine ⟨p, mapGet_of_mem _ _ _ h.nodup_keys hmem, ?_, SHA512_ne_empty p, ?_⟩
  · intro q hq
    have hq2 := mem_of_mapGet_ne_zero (run System.init tr).hs.passwordMap q
      (by rw [hq]; omega)
    rw [hq, h.map] at hq2
    exact numbered_inj _ _ _ _ _ hq2 hp
  · have hst : taskOf (p, id) ∈ (run System.init tr).started := by
      rw [h.started]
      exact List.mem_map_of_mem _ hmem
    by_cases hsl : taskOf (p, id) ∈ (run System.init tr).sleeping
    · have hpend : index (run System.init tr).hs.hashes (id - 1) = some "" :=
        h.pending _ hsl
      exact Or.inl ⟨hpend, by simp [lookupHash, h0, hpend]⟩
    · have hready : index (run System.init tr).hs.hashes (id - 1) = some (SHA512 p) :=
        h.ready _ hst hsl
      have hlater := h.run_entry tr2 (id - 1) _ (SHA512_ne_empty p) hready
      rw [← run_append] at hlater
      exact Or.inr ⟨hready, by
        simp [lookupHash, h0, hready, hlater, SHA512_ne_empty p, writer_run]⟩

set_option maxRecDepth 100000 in
theorem lookup_returns_digest_witness :
    lookupHash
        (run System.init [.arrive 1, .submit (.ok "alpha"), .arrive 2,
          .submit (.ok "beta"), .publish ⟨1, "alpha"⟩, .arrive 3]).hs
        (run System.init ([.arrive 1, .submit (.ok "alpha"), .arrive 2,
          .submit (.ok "beta"), .publish ⟨1, "alpha"⟩, .arrive 3]
          ++ [.publish ⟨2, "beta"⟩])).hs (some 1)
      = .printed 3 (.body (SHA512 "alpha")) := by
  obtain ⟨p, hp, huniq, -, hcases⟩ :=
    lookup_returns_digest [.arrive 1, .submit (.ok "alpha"), .arrive 2,
      .submit (.ok "beta"), .publish ⟨1, "alpha"⟩, .arrive 3] [.publish ⟨2, "beta"⟩] 1
      (by decide) (by decide)
  have halpha : "alpha" = p := huniq "alpha" (by decide)
  subst halpha
  rcases hcases with ⟨hwait, -⟩ | ⟨-, hreply⟩
  · have hentry := (inv_run [.arrive 1, .submit (.ok "alpha"), .arrive 2,
      .submit (.ok "beta"), .publish ⟨1, "alpha"⟩, .arrive 3]).ready ⟨1, "alpha"⟩
      (by decide) (by decide)
    rw [hentry] at hwait
    exact absurd (Option.some.inj hwait) (SHA512_ne_empty "alpha")
  · exact hreply

set_option maxRecDepth 100000 in
/-- C8 as stated fails: request 1 submits "alpha"; request 2 retrieves the id 1
and is parked; request 3 arrives and submits "beta"; the task of "alpha" stores
its digest. When request 2 wakes up, `lookupHash` prints the digest of "alpha"
to the writer of request 3, not to the writer of request 2. -/
theorem lookup_prints_elsewhere :
    (run System.init [.arrive 1, .submit (.ok "alpha"), .arrive 2]).hs.w = 2
      ∧ lookupHash
          (run System.init [.arrive 1, .submit (.ok "alpha"), .arrive 2]).hs
          (run System.init [.arrive 1, .submit (.ok "alpha"), .arrive 2]).hs (some 1)
        = .waiting
      ∧ lookupHash
          (run System.init [.arrive 1, .submit (.ok "alpha"), .arrive 2, .arrive 3,
            .submit (.ok "beta"), .publish ⟨1, "alpha"⟩]).hs
          (run System.init [.arrive 1, .submit (.ok "alpha"), .arrive 2, .arrive 3,
            .submit (.ok "beta"), .publish ⟨1, "alpha"⟩]).hs (some 1)
        = .printed 3 (.body (SHA512 "alpha"))
      ∧ lookupHash
          (run System.init [.arrive 1, .submit (.ok "alpha"), .arrive 2, .arrive 3,
            .submit (.ok "beta"), .publish ⟨1, "alpha"⟩]).hs
          (run System.init [.arrive 1, .submit (.ok "alpha"), .arrive 2, .arrive 3,
            .submit (.ok "beta"), .publish ⟨1, "alpha"⟩]).hs (some 1)
        ≠ .printed 2 (.body (SHA512 "alpha")) := by
  decide

/-- C9. The invariant of the job table and the map: after any execution `tr`
from the initial state (the empty one included), every entry of `passwordMap`
has an id from 1 to `len(hashes)`, which reading the map gives back, so that
reading 0 means that the password is absent; no password has two entries and
no id two passwords; `len(hashes)` is the number of entries, which is the
number of distinct passwords accepted; and every entry is still there, with
the same id, after any further events `tr2`. -/
theorem job_table_invariant (tr tr2 : List Event) :
    (∀ p id, (p, id) ∈ (run System.init tr).hs.passwordMap →
        1 ≤ id ∧ id ≤ (run System.init tr).hs.hashes.length
          ∧ mapGet (run System.init tr).hs.passwordMap p = id)
      ∧ (∀ p, mapGet (run System.init tr).hs.passwordMap p = 0
          ↔ p ∉ (run System.init tr).hs.passwordMap.map Prod.fst)
      ∧ ((run System.init tr).hs.passwordMap.map Prod.fst).Nodup
      ∧ (∀ p q id, (p, id) ∈ (run System.init tr).hs.passwordMap →
          (q, id) ∈ (run System.init tr).hs.passwordMap → p = q)
      ∧ (run System.init tr).hs.hashes.length = (run System.init tr).hs.passwordMap.length
      ∧ (run System.init tr).hs.passwordMap.length = (passwords tr).toFinset.card
      ∧ (∀ p id, (p, id) ∈ (run System.init tr).hs.passwordMap →
          (p, id) ∈ (run System.init (tr ++ tr2)).hs.passwordMap
            ∧ mapGet (run System.init (tr ++ tr2)).hs.passwordMap p = id) := by
  have h := inv_run tr
  have h2 := inv_run (tr ++ tr2)
  refine ⟨?_, ?_, h.nodup_keys, ?_, ?_, ?_, ?_⟩
  · intro p id hm
    exact ⟨(h.range p id hm).1, (h.range p id hm).2, mapGet_of_mem _ _ _ h.nodup_keys hm⟩
  · intro p
    rw [h.mapGet_eq_zero, h.keys]
  · intro p q id hp hq
    rw [h.map] at hp hq
    exact numbered_inj _ _ _ _ _ hp hq
  · rw [h.len, h.map, length_numbered]
  · rw [h.map, length_numbered, length_distinct]
  · intro p id hm
    have hm2 := (map_extends tr tr2).subset hm
    exact ⟨hm2, mapGet_of_mem _ _ _ h2.nodup_keys hm2⟩

/-- C10. A digest is set once and stays: `SHA512` never gives the empty
string; after any execution `tr` from the initial state, the call of
`startHash` for a task that has not yet stored its digest succeeds, finds
`hashes[id-1]` empty and sets it to `SHA512 password`, leaving the length of
`hashes`, every other entry and `passwordMap` as they are (this is the change
the event of the task makes); and an entry of `hashes` that is not empty is
the same after any further events `tr2`. -/
theorem digest_set_once (tr tr2 : List Event) :
    (∀ text, SHA512 text ≠ "")
      ∧ (∀ t ∈ (run System.init tr).sleeping, ∀ elapsed : Int,
        ∃ hs1, startHash (run System.init tr).hs t.id t.password elapsed = .ok hs1
          ∧ index (run System.init tr).hs.hashes (t.id - 1) = some ""
          ∧ index hs1.hashes (t.id - 1) = some (SHA512 t.password)
          ∧ hs1.hashes.length = (run System.init tr).hs.hashes.length
          ∧ (∀ j, j ≠ t.id - 1 →
            index hs1.hashes j = index (run System.init tr).hs.hashes j)
          ∧ hs1.passwordMap = (run System.init tr).hs.passwordMap
          ∧ (step (run System.init tr) (.publish t)).hs.hashes = hs1.hashes)
      ∧ (∀ i x, x ≠ "" → index (run System.init tr).hs.hashes i = some x →
        index (run System.init (tr ++ tr2)).hs.hashes i = some x) := by
  have h := inv_run tr
  refine ⟨SHA512_ne_empty, ?_, ?_⟩
  · intro t ht elapsed
    have hpend := h.pending t ht
    refine ⟨startHash.deferred
      { (run System.init tr).hs with
        hashes := (run System.init tr).hs.hashes.set (t.id - 1).toNat (SHA512 t.password) }
      elapsed, ?_, hpend, ?_, ?_, ?_, rfl, ?_⟩
    · simp only [startHash]
      rw [startHash_body_ok _ _ _ _ hpend]
    · show index ((run System.init tr).hs.hashes.set (t.id - 1).toNat (SHA512 t.password))
        (t.id - 1) = _
      rw [index_set _ _ _ _ _ hpend, if_pos rfl]
    · show ((run System.init tr).hs.hashes.set (t.id - 1).toNat (SHA512 t.password)).length
        = _
      simp
    · intro j hj
      show index ((run System.init tr).hs.hashes.set (t.id - 1).toNat (SHA512 t.password))
        j = _
      rw [index_set _ _ _ _ _ hpend, if_neg hj]
    · rw [step_publish h t ht]
      rfl
  · intro i x hx hi
    rw [run_append]
    exact h.run_entry tr2 i x hx hi

end JumpCloud
